import Mathlib

/-!
Verification development for the HMM inference engine of `src/hmm.py`.

The log-domain engine (`_prune_states`, `_do_forward_pass`, `_do_backward_pass`,
`_do_viterbi_pass`, `lpdf`, `eval`, `decode`) is embedded over `WithBot ℝ`, where
`⊥` plays the role of `-inf`.  The emission collaborator is abstracted away: the
per-frame per-state log-likelihood matrix (`framelogprob`) is an explicit input,
exactly as it is an explicit input of the `_do_*_pass` methods in the source.
The model-parameter store (`startprob`/`transmat` setters, `__init__`, `_init`,
`rvs`) is embedded over `ℚ`, since its validation logic is pure arithmetic.

`logsum` and `almost_equal` are imported by `src/hmm.py` from `gmm.py`, which is
not part of `src/`; they are modelled from the specification (sections 4.1 and 7),
as marked in their doc comments.
-/

noncomputable section

open scoped Classical

/-- Log-domain value: a real log-probability, or `⊥` standing for `-inf`. -/
abbrev LogVal := WithBot ℝ

/-- Exponential on log-domain values, with `exp (-inf) = 0`. -/
def eexp : LogVal → ℝ
  | ⊥ => 0
  | (x : ℝ) => Real.exp x

/-- Logarithm into the log domain, with `log 0 = -inf` (numpy semantics; a negative
argument cannot arise from a sum of exponentials and is also sent to `⊥`). -/
def elog (r : ℝ) : LogVal := if 0 < r then ((Real.log r : ℝ) : LogVal) else ⊥

/-- Modelled from the spec: `logsum` is imported from `gmm.py`, which is not under
`src/`.  Spec section 4.1 defines `logSumExp` as `log (Σ exp x_i)` computed stably,
returning `-inf` on all-`-inf` input; over exact reals that is this function. -/
def logsum (xs : List LogVal) : LogVal := elog ((xs.map eexp).sum)

/-- The numeric floor `ZEROLOGPROB = -1e200` of the source. -/
def ZEROLOGPROB : ℝ := -(10 ^ 200)

/-- Clamp applied to every finished lattice in the source
(`lattice[lattice <= ZEROLOGPROB] = -np.Inf`). -/
def clampVal (v : LogVal) : LogVal := if v ≤ (ZEROLOGPROB : LogVal) then ⊥ else v

/-- Maximum of a list of log-domain values (`np.max`; `⊥` for the empty list, where
numpy would raise instead). -/
def myMax (xs : List LogVal) : LogVal := xs.foldr max ⊥

/-- The finite (non-`-inf`) values of a lattice frame, in order. -/
def realVals (frame : List LogVal) : List ℝ :=
  frame.filterMap (WithBot.recBotCoe none Option.some)

/-- Lower end of the rank-pruning histogram range:
`lattice_frame[lattice_frame > ZEROLOGPROB].min() - 1` from the source
(`none` when the filtered array is empty, where numpy raises). -/
def histLo (frame : List LogVal) : Option ℝ :=
  match (realVals frame).filter (fun x => decide (ZEROLOGPROB < x)) with
  | [] => none
  | x :: xs => some (xs.foldl min x - 1)

/-- Upper end of the histogram range: `lattice_frame.max()` (`none` on an all-`-inf`
or empty frame, which cannot be reached without first hitting the `histLo` error). -/
def histHi (frame : List LogVal) : Option ℝ :=
  WithBot.recBotCoe none Option.some (myMax frame)

/-- Edge `j` of the `nb`-bin uniform histogram on `[lo, hi]` (numpy bin edges). -/
def edgeAt (lo hi : ℝ) (nb j : ℕ) : ℝ := lo + j * (hi - lo) / nb

/-- Number of values falling in histogram bin `i`: bins are left-closed right-open,
except the last bin, which also contains `hi` (numpy histogram semantics). -/
def histCount (vals : List ℝ) (lo hi : ℝ) (nb i : ℕ) : ℕ :=
  (vals.filter (fun x => decide (edgeAt lo hi nb i ≤ x) &&
      (if i + 1 = nb then decide (x ≤ hi) else decide (x < edgeAt lo hi nb (i + 1))))).length

/-- The histogram `hst` of the source. -/
def hstList (vals : List ℝ) (lo hi : ℝ) (nb : ℕ) : List ℕ :=
  (List.range nb).map (histCount vals lo hi nb)

/-- Entry `k` of `hst[::-1].cumsum()`: the total count of the top `k + 1` bins. -/
def revCumCount (vals : List ℝ) (lo hi : ℝ) (nb k : ℕ) : ℕ :=
  (((hstList vals lo hi nb).reverse).take (k + 1)).sum

/-- The reversed bin edges selected by the boolean mask `hst >= min(maxrank, nstates)`
in the source: `cdf[::-1][k] = edgeAt lo hi nb (nb - k)`.  The mask has `nb` entries
while `cdf` has `nb + 1`, and the era-appropriate numpy pads a short boolean mask
with `False`, so the last reversed edge (index `nb`, the lowest edge) is never
selectable. -/
def rankCandidates (vals : List ℝ) (lo hi : ℝ) (nb m : ℕ) : List ℝ :=
  (List.range nb).filterMap (fun k =>
    if m ≤ revCumCount vals lo hi nb k then some (edgeAt lo hi nb (nb - k)) else none)

/-- Embeds `_BaseHMM._prune_states`: beam threshold `logsum(frame) + beamlogprob`;
when `maxrank` is a nonzero integer (Python `if maxrank:`), additionally a rank
threshold `cdf[hst >= min(maxrank, nstates)].max()` computed from a histogram with
`3 * len(frame)` bins, combined by `max`.  Returns the indices of the frame entries
at or above the threshold, in increasing order (`np.nonzero`).  In the source the
frame is always a lattice row of length `self._nstates`, so `frame.length` stands
for `self._nstates`.  The two `numpy` error states (empty minimum when no entry
exceeds `ZEROLOGPROB`; empty maximum when no mask entry is true) are modelled by
falling back to the beam threshold; no theorem below relies on those branches. -/
def pruneStates (frame : List LogVal) (maxrank : Option ℕ) (beamlogprob : LogVal) : List ℕ :=
  let threshlogprob := logsum frame + beamlogprob
  let thresh :=
    match maxrank with
    | none => threshlogprob
    | some mr =>
      if mr = 0 then threshlogprob
      else
        match histLo frame, histHi frame with
        | some lo, some hi =>
          max threshlogprob
            (List.maximum (rankCandidates (realVals frame) lo hi (3 * frame.length)
              (min mr frame.length)))
        | _, _ => threshlogprob
  (List.range frame.length).filter (fun i => decide (thresh ≤ frame.getD i ⊥))

/-- Entry `logTransMat[s][d]` (`⊥` out of range; theorems only use in-range indices). -/
def transAt (lt : List (List LogVal)) (s d : ℕ) : LogVal := (lt.getD s []).getD d ⊥

/-- One step of the forward recursion of `_do_forward_pass`: prune the previous row,
then for each destination state log-sum over the active sources of
`logTransMat[source][dest] + previous[source]`, plus the frame log-likelihood. -/
def forwardStep (lt : List (List LogVal)) (n : ℕ) (maxrank : Option ℕ) (beam : LogVal)
    (prev fn : List LogVal) : List LogVal :=
  let idx := pruneStates prev maxrank beam
  (List.range n).map (fun d =>
    logsum (idx.map (fun s => transAt lt s d + prev.getD s ⊥)) + fn.getD d ⊥)

/-- Embeds `_BaseHMM._do_forward_pass`: first row `logStartProb + frameLogLik[0]`,
recursion rows via `forwardStep`, then the whole lattice is clamped at
`ZEROLOGPROB`, and the returned log-probability is `logsum` of the (clamped) last
row.  The empty-observation case, on which the source would raise an index error,
returns `(⊥, [])`. -/
def doForwardPass (ls : List LogVal) (lt : List (List LogVal)) (n : ℕ)
    (f : List (List LogVal)) (maxrank : Option ℕ) (beam : LogVal) :
    LogVal × List (List LogVal) :=
  match f with
  | [] => (⊥, [])
  | f0 :: rest =>
    let rows := rest.scanl (forwardStep lt n maxrank beam) (List.zipWith (· + ·) ls f0)
    let lattice := rows.map (fun r => r.map clampVal)
    (logsum (lattice.getLastD []), lattice)

/-- Embeds `_BaseHMM.lpdf` with the emission collaborator abstracted: `f` is the
`framelogprob` matrix that `self._compute_log_likelihood(obs)` would produce. -/
def lpdf (ls : List LogVal) (lt : List (List LogVal)) (n : ℕ) (f : List (List LogVal))
    (maxrank : Option ℕ) (beam : LogVal) : LogVal :=
  (doForwardPass ls lt n f maxrank beam).1

/-- One step of `_do_backward_pass`: prune on `bwdlattice[n] + fwdlattice[n]` with the
hard-coded arguments `(None, -50)` of the source, then per source state log-sum over
the active destinations of `logTransMat[s][d] + bwdlattice[n][d] + framelogprob[n][d]`. -/
def backwardStep (lt : List (List LogVal)) (n : ℕ) (fn fwdn bwdn : List LogVal) :
    List LogVal :=
  let idx := pruneStates (List.zipWith (· + ·) bwdn fwdn) none ((-50 : ℝ) : LogVal)
  (List.range n).map (fun s =>
    logsum (idx.map (fun d => transAt lt s d + bwdn.getD d ⊥ + fn.getD d ⊥)))

/-- Backward-lattice row at index `f.length - 1 - j`, computed from the end:
`j = 0` is the last row (all zeros, log-domain probability one). -/
def bwdRowAux (lt : List (List LogVal)) (n : ℕ) (f fwdlat : List (List LogVal)) :
    ℕ → List LogVal
  | 0 => List.replicate n ((0 : ℝ) : LogVal)
  | j + 1 =>
    backwardStep lt n (f.getD (f.length - 1 - j) []) (fwdlat.getD (f.length - 1 - j) [])
      (bwdRowAux lt n f fwdlat j)

/-- Embeds `_BaseHMM._do_backward_pass`.  The caller-supplied `maxrank` and `beam`
parameters are accepted but unused, exactly as in the source, whose internal call is
`self._prune_states(bwdlattice[n] + fwdlattice[n], None, -50)` with the literal beam
width `-50` (the commented-out `beamlogprob` alternative in the source is dead). -/
def doBackwardPass (lt : List (List LogVal)) (n : ℕ) (f fwdlat : List (List LogVal))
    (maxrank : Option ℕ) (beam : LogVal) : List (List LogVal) :=
  ((List.range f.length).map (fun i => bwdRowAux lt n f fwdlat (f.length - 1 - i))).map
    (fun r => r.map clampVal)

/-- First index attaining the maximum (`np.argmax`; `0` on the empty list, where
numpy raises). -/
def listArgmax (l : List LogVal) : ℕ :=
  ((List.range l.length).find? (fun i => decide (myMax l ≤ l.getD i ⊥))).getD 0

/-- One step of `_do_viterbi_pass`: the matrix `pr` has one column per ACTIVE source;
`np.max(pr, axis=1)` gives the new lattice row and `np.argmax(pr, axis=1)` the
traceback entries.  Note the recorded argmax is the POSITION inside the pruned
source list `idx`, exactly as in the source, not the source's state index. -/
def viterbiStep (lt : List (List LogVal)) (n : ℕ) (maxrank : Option ℕ) (beam : LogVal)
    (prev fn : List LogVal) : List LogVal × List ℕ :=
  let idx := pruneStates prev maxrank beam
  ((List.range n).map (fun d =>
      myMax (idx.map (fun s => transAt lt s d + prev.getD s ⊥)) + fn.getD d ⊥),
   (List.range n).map (fun d =>
      listArgmax (idx.map (fun s => transAt lt s d + prev.getD s ⊥))))

/-- Lattice rows and traceback rows of the Viterbi recursion.  The source also keeps
an all-zero traceback row for frame 0; its contents are read once by the traceback
walk and immediately discarded, so it is omitted here (the walk below compensates). -/
def viterbiAux (lt : List (List LogVal)) (n : ℕ) (maxrank : Option ℕ) (beam : LogVal) :
    List LogVal → List (List LogVal) → List (List LogVal) × List (List ℕ)
  | prev, [] => ([prev], [])
  | prev, fn :: rest =>
    let st := viterbiStep lt n maxrank beam prev fn
    let r := viterbiAux lt n maxrank beam st.1 rest
    (prev :: r.1, st.2 :: r.2)

/-- The traceback walk of the source (`for frame in reversed(traceback)`), given the
traceback rows for frames `nobs-1, ..., 1` in reversed order: emit the current
state, then follow its pointer.  Produces the reversed state sequence. -/
def walkRev : List (List ℕ) → ℕ → List ℕ
  | [], s => [s]
  | tb :: rest, s => s :: walkRev rest (tb.getD s 0)

/-- Embeds `_BaseHMM._do_viterbi_pass`: build lattice and traceback, clamp the
lattice at `ZEROLOGPROB`, start the walk at `lattice[-1].argmax()`, and return
`logsum` of the last (clamped) lattice row together with the chronological state
sequence. -/
def doViterbiPass (ls : List LogVal) (lt : List (List LogVal)) (n : ℕ)
    (f : List (List LogVal)) (maxrank : Option ℕ) (beam : LogVal) : LogVal × List ℕ :=
  match f with
  | [] => (⊥, [])
  | f0 :: rest =>
    let vr := viterbiAux lt n maxrank beam (List.zipWith (· + ·) ls f0) rest
    let lattice := vr.1.map (fun r => r.map clampVal)
    let lastRow := lattice.getLastD []
    (logsum lastRow, (walkRev vr.2.reverse (listArgmax lastRow)).reverse)

/-- Embeds `_BaseHMM.decode` with the emission collaborator abstracted. -/
def decodeHmm (ls : List LogVal) (lt : List (List LogVal)) (n : ℕ)
    (f : List (List LogVal)) (maxrank : Option ℕ) (beam : LogVal) : LogVal × List ℕ :=
  doViterbiPass ls lt n f maxrank beam

/-- Log-domain subtraction for the posterior normalization: `-inf - L = -inf`
(so `exp` of it is `0`).  The case `x - (-inf)` cannot arise in `hmmEval`, because
the subtrahend is the row's `logsum`, which is `⊥` only when every row entry is
`⊥`; that unreachable case is also sent to `⊥`. -/
def esub : LogVal → LogVal → LogVal
  | (x : ℝ), (y : ℝ) => ((x - y : ℝ) : LogVal)
  | _, _ => ⊥

/-- `gamma = fwdlattice + bwdlattice` of `_BaseHMM.eval`. -/
def gammaOf (ls : List LogVal) (lt : List (List LogVal)) (n : ℕ)
    (f : List (List LogVal)) (maxrank : Option ℕ) (beam : LogVal) : List (List LogVal) :=
  List.zipWith (fun r1 r2 => List.zipWith (· + ·) r1 r2)
    (doForwardPass ls lt n f maxrank beam).2
    (doBackwardPass lt n f (doForwardPass ls lt n f maxrank beam).2 maxrank beam)

/-- Embeds `_BaseHMM.eval`: forward pass, backward pass, `gamma`, and the per-frame
renormalization `posteriors = exp(gamma.T - logsum(gamma, axis=1)).T`. -/
def hmmEval (ls : List LogVal) (lt : List (List LogVal)) (n : ℕ)
    (f : List (List LogVal)) (maxrank : Option ℕ) (beam : LogVal) :
    LogVal × List (List ℝ) :=
  ((doForwardPass ls lt n f maxrank beam).1,
   (gammaOf ls lt n f maxrank beam).map (fun g => g.map (fun v => eexp (esub v (logsum g)))))

/-- The forward-lattice recursion exactly as claim C1 states it: first row
`logStartProb + frameLogLik[0]`; each later row sums, per destination, over ALL
source states; no pruning and no clamping anywhere. -/
def specFwdStep (lt : List (List LogVal)) (n : ℕ) (prev fn : List LogVal) : List LogVal :=
  (List.range n).map (fun d =>
    logsum ((List.range n).map (fun s => transAt lt s d + prev.getD s ⊥)) + fn.getD d ⊥)

/-- The unpruned, unclamped forward lattice of claim C1. -/
def specFwdLattice (ls : List LogVal) (lt : List (List LogVal)) (n : ℕ)
    (f : List (List LogVal)) : List (List LogVal) :=
  match f with
  | [] => []
  | f0 :: rest => rest.scanl (specFwdStep lt n) (List.zipWith (· + ·) ls f0)

/-- Count of states of the frame whose value is at or above `e`. -/
def countAtOrAbove (frame : List LogVal) (e : ℝ) : ℕ :=
  (frame.filter (fun v => decide ((e : LogVal) ≤ v))).length

/-- The rank threshold exactly as claim C5 words it: the smallest value among the
bin edges at which the cumulative count of states at or above it reaches `m`. -/
def claimRankThresh (frame : List LogVal) (lo hi : ℝ) (nb m : ℕ) : Option ℝ :=
  match ((List.range (nb + 1)).map (edgeAt lo hi nb)).filter
      (fun e => decide (m ≤ countAtOrAbove frame e)) with
  | [] => none
  | x :: xs => some (xs.foldl min x)

/-- The active-state set claim C5 predicts when `maxrank` is set: all states at or
above `max (beam threshold) (claim rank threshold)`. -/
def claimActiveSet (frame : List LogVal) (mr : ℕ) (beam : LogVal) : List ℕ :=
  let rt : LogVal :=
    match histLo frame, histHi frame with
    | some lo, some hi =>
      match claimRankThresh frame lo hi (3 * frame.length) (min mr frame.length) with
      | some t => (t : LogVal)
      | none => ⊥
    | _, _ => ⊥
  (List.range frame.length).filter
    (fun i => decide (max (logsum frame + beam) rt ≤ frame.getD i ⊥))

/-- Concrete frame refuting the no-op-pruning and rank-threshold claims:
two states with log-probabilities `0` and `-500`. -/
def pruneCE : List LogVal := [((0 : ℝ) : LogVal), ((-500 : ℝ) : LogVal)]

/-- Log of a positive real, as a log-domain value (shorthand for concrete inputs). -/
def lgv (x : ℝ) : LogVal := ((Real.log x : ℝ) : LogVal)

/-- Valid 2-state model for the C4 counterexample: `startprob = [2/5, 3/5]`,
`transmat = [[9/10, 1/10], [3/5, 2/5]]`, in log domain. -/
def lsC4 : List LogVal := [lgv (2/5), lgv (3/5)]

def ltC4 : List (List LogVal) :=
  [[lgv (9/10), lgv (1/10)], [lgv (3/5), lgv (2/5)]]

/-- Frame log-likelihoods of the C4 counterexample (emission probabilities
`[1, 1]`, `[1, 3/2]`, `[1/10, 1]`). -/
def fC4 : List (List LogVal) :=
  [[lgv 1, lgv 1], [lgv 1, lgv (3/2)], [lgv (1/10), lgv 1]]

/-- Beam width `log (2/5)` for the C4 counterexample. -/
def beamC4 : LogVal := lgv (2/5)

/-- 2-state model for the C3 traceback bug: `startprob = [1/10, 9/10]`, uniform
transitions, flat emissions, `beamlogprob = log (3/10)`. -/
def ls3 : List LogVal := [lgv (1/10), lgv (9/10)]

def lt3 : List (List LogVal) :=
  [[lgv (1/2), lgv (1/2)], [lgv (1/2), lgv (1/2)]]

def f3 : List (List LogVal) := [[lgv 1, lgv 1], [lgv 1, lgv 1]]

def beam3 : LogVal := lgv (3/10)

end

/-- Failure conditions of the model-parameter store (spec section 7 maps the two
`ValueError` messages of the setters to these conditions). -/
inductive HmmError
  | shapeMismatch
  | invalidDistribution
deriving DecidableEq

/-- The model-parameter store of `_BaseHMM`: state count, initial distribution and
transition matrix.  The source keeps the distributions in log domain
(`_log_startprob`, `_log_transmat`) and the property getters return
`np.exp` of the store; since `exp (log p) = p`, the store is embedded directly in
the probability domain over `ℚ`, where the validation arithmetic is exact. -/
structure HmmModel where
  nstates : ℕ
  startprob : List ℚ
  transmat : List (List ℚ)
deriving DecidableEq

/-- Modelled from the spec: `almost_equal` is imported from `gmm.py`, which is not
under `src/`.  Spec section 7 only requires a tolerance `eps` such that a sum of
`1 ± eps` is accepted and `1 + 10 eps` rejected; following the numpy.testing
convention (7 decimal places) of this code base the tolerance is `5e-8`. -/
def almost_equal (actual desired : ℚ) : Prop := |desired - actual| < 5 / 10 ^ 8

instance (a b : ℚ) : Decidable (almost_equal a b) := by
  unfold almost_equal; infer_instance

/-- Embeds the `startprob` property setter: length check first (`ValueError:
startprob must have length nstates`), then the sum check (`ValueError: startprob
must sum to 1.0`); only then is the store updated, so a failed assignment leaves
the previously stored parameters untouched. -/
def setStartprob (m : HmmModel) (v : List ℚ) : Except HmmError HmmModel :=
  if v.length ≠ m.nstates then .error .shapeMismatch
  else if ¬ almost_equal v.sum 1 then .error .invalidDistribution
  else .ok ⟨m.nstates, v, m.transmat⟩

/-- Embeds the `transmat` property setter: shape check, then per-row sum check. -/
def setTransmat (m : HmmModel) (t : List (List ℚ)) : Except HmmError HmmModel :=
  if ¬ (t.length = m.nstates ∧ ∀ r ∈ t, r.length = m.nstates) then .error .shapeMismatch
  else if ¬ (∀ r ∈ t, almost_equal r.sum 1) then .error .invalidDistribution
  else .ok ⟨m.nstates, m.startprob, t⟩

/-- Embeds `_BaseHMM.__init__`: omitted arguments default to uniform distributions;
`startprob` is assigned (hence validated) first, then `transmat`, so an invalid
argument raises before the model object finishes construction. -/
def mkHmmModel (nstates : ℕ) (startprob : Option (List ℚ))
    (transmat : Option (List (List ℚ))) : Except HmmError HmmModel := do
  let m0 : HmmModel := ⟨nstates, [], []⟩
  let m1 ← setStartprob m0 (startprob.getD (List.replicate nstates ((1 : ℚ) / nstates)))
  setTransmat m1
    (transmat.getD (List.replicate nstates (List.replicate nstates ((1 : ℚ) / nstates))))

/-- Embeds `_BaseHMM._init`.  In the source, `self.startprob[:] = 1.0 / nstates`
and `self.transmat[:] = 1.0 / nstates` perform in-place assignment into the array
returned by the property GETTER, which is `np.exp(self._log_startprob)` — a fresh
temporary array.  The temporaries (made explicit below) are discarded and the
stored parameters are left unmodified. -/
def hmmBaseInit (m : HmmModel) (params : List Char) : HmmModel :=
  let startprobTmp :=
    if 's' ∈ params then List.replicate m.startprob.length ((1 : ℚ) / m.nstates)
    else m.startprob
  let transmatTmp :=
    if 't' ∈ params then m.transmat.map (fun r => List.replicate r.length ((1 : ℚ) / m.nstates))
    else m.transmat
  -- both temporaries correspond to arrays the source mutates and drops
  m

/-- Cumulative sums (`np.cumsum`) of a rational vector. -/
def cumsumQ (l : List ℚ) : List ℚ := (List.range l.length).map (fun k => (l.take (k + 1)).sum)

/-- Inverse-CDF draw of the source: `(cdf > rand).argmax()` is the first index whose
cumulative value exceeds the uniform draw (`0` if none is, as `np.argmax` returns
`0` on an all-`False` array). -/
def drawIdx (cdf : List ℚ) (r : ℚ) : ℕ :=
  ((List.range cdf.length).find? (fun i => decide (r < cdf.getD i 0))).getD 0

/-- The sampling loop of `rvs` (`for x in xrange(n-1)`): at step `k` draw the next
state from the current state's transition row and emit one observation from it. -/
def rvsLoop {α : Type} (m : HmmModel) (emit : ℕ → ℕ → α) (rands : ℕ → ℚ) :
    ℕ → ℕ → ℕ → List α
  | _, _, 0 => []
  | k, curr, fuel + 1 =>
    let s := drawIdx (cumsumQ (m.transmat.getD curr [])) (rands k)
    emit k s :: rvsLoop m emit rands (k + 1) s fuel

/-- Embeds `_BaseHMM.rvs` with the emission collaborator abstracted into `emit`
(one observation per visited state) and the random source into `rands` (one
uniform draw per step).  The initial state is drawn from `startprob`'s CDF and its
observation is emitted BEFORE the loop, which runs `n - 1` times; for `n = 0` the
Python loop `xrange(-1)` is empty, matching truncated subtraction on `ℕ`. -/
def rvs {α : Type} (m : HmmModel) (emit : ℕ → ℕ → α) (rands : ℕ → ℚ) (n : ℕ) : List α :=
  let s0 := drawIdx (cumsumQ m.startprob) (rands 0)
  emit 0 s0 :: rvsLoop m emit rands 1 s0 (n - 1)

/-! Basic lemmas about the log-domain primitives. -/

theorem eexp_bot : eexp ⊥ = 0 := rfl

theorem eexp_coe (x : ℝ) : eexp ((x : ℝ) : LogVal) = Real.exp x := rfl

theorem eexp_nonneg (v : LogVal) : 0 ≤ eexp v := by
  induction v using WithBot.recBotCoe with
  | bot => simp [eexp_bot]
  | coe x => rw [eexp_coe]; exact (Real.exp_pos x).le

theorem eexp_coe_log {p : ℝ} (hp : 0 < p) : eexp ((Real.log p : ℝ) : LogVal) = p := by
  rw [eexp_coe, Real.exp_log hp]

theorem eexp_mono : ∀ {v w : LogVal}, v ≤ w → eexp v ≤ eexp w := by
  intro v w h
  induction v using WithBot.recBotCoe with
  | bot => exact (eexp_bot ▸ eexp_nonneg w)
  | coe x =>
    induction w using WithBot.recBotCoe with
    | bot => exact absurd h (WithBot.not_coe_le_bot x)
    | coe y => rw [eexp_coe, eexp_coe]; exact Real.exp_le_exp.mpr (WithBot.coe_le_coe.mp h)

theorem elog_pos_eq {r : ℝ} (hr : 0 < r) : elog r = ((Real.log r : ℝ) : LogVal) := by
  simp [elog, hr]

theorem elog_nonpos_eq {r : ℝ} (hr : ¬ 0 < r) : elog r = ⊥ := by
  simp [elog, hr]

theorem elog_mono {r s : ℝ} (h : r ≤ s) : elog r ≤ elog s := by
  by_cases hr : 0 < r
  · rw [elog_pos_eq hr, elog_pos_eq (hr.trans_le h)]
    exact WithBot.coe_le_coe.mpr (Real.log_le_log hr h)
  · rw [elog_nonpos_eq hr]; exact bot_le

theorem logsum_nil : logsum [] = ⊥ := by
  simp [logsum, elog]

theorem logsum_log_list {ps : List ℝ} (h : ∀ p ∈ ps, 0 < p) (hne : ps ≠ []) :
    logsum (ps.map (fun p => ((Real.log p : ℝ) : LogVal))) = ((Real.log ps.sum : ℝ) : LogVal) := by
  have hmap : (ps.map (fun p => ((Real.log p : ℝ) : LogVal))).map eexp = ps := by
    rw [List.map_map]
    have : ∀ p ∈ ps, (eexp ∘ fun p => ((Real.log p : ℝ) : LogVal)) p = id p := by
      intro p hp
      simp [Function.comp, eexp_coe_log (h p hp)]
    rw [List.map_congr_left this, List.map_id]
  rw [logsum, hmap, elog_pos_eq (List.sum_pos ps h hne)]

theorem logsum_single_log {p : ℝ} (hp : 0 < p) :
    logsum [((Real.log p : ℝ) : LogVal)] = ((Real.log p : ℝ) : LogVal) := by
  have := @logsum_log_list [p] (by simpa using hp) (by simp)
  simpa using this

theorem logsum_pair_log {p q : ℝ} (hp : 0 < p) (hq : 0 < q) :
    logsum [((Real.log p : ℝ) : LogVal), ((Real.log q : ℝ) : LogVal)] =
      ((Real.log (p + q) : ℝ) : LogVal) := by
  have := @logsum_log_list [p, q] (by
    intro x hx
    rcases List.mem_pair.mp hx with rfl | rfl
    · exact hp
    · exact hq) (by simp)
  simpa using this

theorem coe_log_add {p q : ℝ} (hp : 0 < p) (hq : 0 < q) :
    ((Real.log p : ℝ) : LogVal) + ((Real.log q : ℝ) : LogVal) =
      ((Real.log (p * q) : ℝ) : LogVal) := by
  rw [← WithBot.coe_add, Real.log_mul hp.ne' hq.ne']

theorem coe_log_le_coe_log {p q : ℝ} (hp : 0 < p) (hq : 0 < q) :
    (((Real.log p : ℝ) : LogVal) ≤ ((Real.log q : ℝ) : LogVal)) ↔ p ≤ q := by
  rw [WithBot.coe_le_coe]
  exact Real.log_le_log_iff hp hq

theorem le_logsum_of_mem {l : List LogVal} {v : LogVal} (hv : v ∈ l) : v ≤ logsum l := by
  induction v using WithBot.recBotCoe with
  | bot => exact bot_le
  | coe a =>
    have hmem : eexp ((a : ℝ) : LogVal) ∈ l.map eexp := List.mem_map_of_mem eexp hv
    have hle : Real.exp a ≤ (l.map eexp).sum := by
      have := List.single_le_sum
        (fun x hx => by
          obtain ⟨w, _, rfl⟩ := List.mem_map.mp hx
          exact eexp_nonneg w) _ hmem
      simpa [eexp_coe] using this
    have hS : 0 < (l.map eexp).sum := lt_of_lt_of_le (Real.exp_pos a) hle
    rw [logsum, elog_pos_eq hS]
    exact WithBot.coe_le_coe.mpr (by
      calc a = Real.log (Real.exp a) := (Real.log_exp a).symm
      _ ≤ Real.log ((l.map eexp).sum) := Real.log_le_log (Real.exp_pos a) hle)

theorem myMax_le {l : List LogVal} {b : LogVal} (h : ∀ a ∈ l, a ≤ b) : myMax l ≤ b := by
  induction l with
  | nil => exact bot_le
  | cons x xs ih =>
    rw [myMax, List.foldr_cons]
    exact max_le (h x (List.mem_cons_self x xs)) (ih (fun a ha => h a (List.mem_cons_of_mem x ha)))

theorem le_myMax_of_mem {l : List LogVal} {v : LogVal} (hv : v ∈ l) : v ≤ myMax l := by
  induction l with
  | nil => cases hv
  | cons x xs ih =>
    rw [myMax, List.foldr_cons]
    rcases List.mem_cons.mp hv with rfl | h
    · exact le_max_left _ _
    · exact le_trans (ih h) (le_max_right _ _)

theorem myMax_le_logsum (l : List LogVal) : myMax l ≤ logsum l :=
  myMax_le (fun _ ha => le_logsum_of_mem ha)

theorem logsum_mono : ∀ {l₁ l₂ : List LogVal}, List.Forall₂ (· ≤ ·) l₁ l₂ →
    logsum l₁ ≤ logsum l₂ := by
  intro l₁ l₂ h
  have hsum : (l₁.map eexp).sum ≤ (l₂.map eexp).sum := by
    induction h with
    | nil => simp
    | cons hab _ ih => simpa using add_le_add (eexp_mono hab) ih
  exact elog_mono hsum

theorem clampVal_mono {v w : LogVal} (h : v ≤ w) : clampVal v ≤ clampVal w := by
  unfold clampVal
  split_ifs with hv hw
  · exact le_refl ⊥
  · exact bot_le
  · exact absurd (le_trans h (by assumption)) hv
  · exact h

theorem forall2_le_getD {l₁ l₂ : List LogVal} (h : List.Forall₂ (· ≤ ·) l₁ l₂) (i : ℕ) :
    l₁.getD i ⊥ ≤ l₂.getD i ⊥ := by
  induction h generalizing i with
  | nil => simp
  | cons hab htail ih =>
    cases i with
    | zero => simpa using hab
    | succ j => simpa using ih j

theorem forall2_clamp {l₁ l₂ : List LogVal} (h : List.Forall₂ (· ≤ ·) l₁ l₂) :
    List.Forall₂ (· ≤ ·) (l₁.map clampVal) (l₂.map clampVal) := by
  induction h with
  | nil => exact List.Forall₂.nil
  | cons hab _ ih => exact List.Forall₂.cons (clampVal_mono hab) ih

theorem forall2_getLastD {α : Type} {R : α → α → Prop} :
    ∀ {l₁ l₂ : List α}, List.Forall₂ R l₁ l₂ → ∀ {d₁ d₂ : α}, R d₁ d₂ →
      R (l₁.getLastD d₁) (l₂.getLastD d₂) := by
  intro l₁ l₂ h
  induction h with
  | nil => intro d₁ d₂ hd; simpa using hd
  | cons hab _ ih =>
    intro d₁ d₂ _
    rw [List.getLastD_cons, List.getLastD_cons]
    exact ih hab

theorem pruneStates_none_bot (frame : List LogVal) :
    pruneStates frame none ⊥ = List.range frame.length := by
  unfold pruneStates
  rw [WithBot.add_bot]
  exact List.filter_eq_self.mpr (fun i _ => by simp)


theorem realVals_ce : realVals pruneCE = [(0 : ℝ), (-500 : ℝ)] := rfl

theorem histLo_ce : histLo pruneCE = some (-501) := by
  rw [histLo, realVals_ce]
  norm_num [List.filter_cons, ZEROLOGPROB, min_def]

theorem histHi_ce : histHi pruneCE = some 0 := by
  rw [histHi]
  have h1 : myMax pruneCE = ((0 : ℝ) : LogVal) := by
    simp only [myMax, pruneCE, List.foldr_cons, List.foldr_nil]
    rw [max_eq_left (bot_le : (⊥ : LogVal) ≤ _), max_eq_left (by
      exact WithBot.coe_le_coe.mpr (by norm_num))]
  rw [h1]
  rfl

theorem hstList_ce : hstList [(0 : ℝ), (-500 : ℝ)] (-501) 0 6 = [1, 0, 0, 0, 0, 1] := by
  have hr : List.range 6 = [0, 1, 2, 3, 4, 5] := rfl
  simp only [hstList, hr, List.map_cons, List.map_nil]
  norm_num [histCount, edgeAt, List.filter_cons]

theorem rankCandidates_ce :
    rankCandidates [(0 : ℝ), (-500 : ℝ)] (-501) 0 6 2 = [(-835 / 2 : ℝ)] := by
  have hr : List.range 6 = [0, 1, 2, 3, 4, 5] := rfl
  simp only [rankCandidates, hr, List.filterMap_cons, List.filterMap_nil]
  norm_num [revCumCount, hstList_ce, edgeAt]

/-- On the frame `[0, -500]` with `maxrank = 2` (the state count) and beam pruning
disabled, `_prune_states` returns only state 0: the histogram rank threshold is
`-417.5`, the upper edge of the bin in which the reverse cumulative count reaches 2,
and `-500` lies below it. -/
theorem pruneStates_ce : pruneStates pruneCE (some 2) ⊥ = [0] := by
  unfold pruneStates
  rw [histLo_ce, histHi_ce]
  simp only [WithBot.add_bot]
  rw [realVals_ce]
  have hlen : pruneCE.length = 2 := rfl
  rw [hlen]
  norm_num [rankCandidates_ce]
  have hr : List.range 2 = [0, 1] := rfl
  rw [hr]
  norm_num [List.filter_cons, pruneCE, WithBot.coe_le_coe]

theorem claimRankThresh_ce : claimRankThresh pruneCE (-501) 0 6 2 = some (-501) := by
  unfold claimRankThresh
  have hr : List.range 7 = [0, 1, 2, 3, 4, 5, 6] := rfl
  norm_num [hr, countAtOrAbove, edgeAt, List.filter_cons, pruneCE, WithBot.coe_le_coe]

theorem claimActiveSet_ce : claimActiveSet pruneCE 2 ⊥ = [0, 1] := by
  unfold claimActiveSet
  rw [histLo_ce, histHi_ce]
  have hlen : pruneCE.length = 2 := rfl
  rw [hlen]
  norm_num [claimRankThresh_ce]
  have hr : List.range 2 = [0, 1] := rfl
  rw [hr]
  norm_num [List.filter_cons, pruneCE, WithBot.coe_le_coe]

theorem mem_realVals {frame : List LogVal} {v : ℝ} (h : v ∈ realVals frame) :
    ((v : ℝ) : LogVal) ∈ frame := by
  obtain ⟨a, ha, hfa⟩ := List.mem_filterMap.mp h
  induction a using WithBot.recBotCoe with
  | bot => simp [WithBot.recBotCoe_bot] at hfa
  | coe w =>
    rw [WithBot.recBotCoe_coe] at hfa
    obtain rfl : w = v := Option.some_inj.mp hfa
    exact ha

theorem foldl_min_mem : ∀ (xs : List ℝ) (x : ℝ), xs.foldl min x ∈ x :: xs := by
  intro xs
  induction xs with
  | nil => intro x; simp
  | cons y ys ih =>
    intro x
    rw [List.foldl_cons]
    rcases le_total x y with hxy | hxy
    · rw [min_eq_left hxy]
      rcases List.mem_cons.mp (ih x) with h | h
      · simp [h]
      · simp [h]
    · rw [min_eq_right hxy]
      rcases List.mem_cons.mp (ih y) with h | h
      · simp [h]
      · simp [h]

theorem histHi_myMax {frame : List LogVal} {hi : ℝ} (h : histHi frame = some hi) :
    myMax frame = ((hi : ℝ) : LogVal) := by
  unfold histHi at h
  cases hmf : myMax frame with
  | none =>
    rw [hmf] at h
    exact Option.noConfusion h
  | some w =>
    rw [hmf] at h
    obtain rfl : w = hi := Option.some_inj.mp h
    rfl

/-- The histogram bounds satisfy `lo ≤ hi`: `lo` is one less than the smallest
finite value above `ZEROLOGPROB`, and `hi` is the frame maximum. -/
theorem histLo_le_histHi {frame : List LogVal} {lo hi : ℝ}
    (hlo : histLo frame = some lo) (hhi : histHi frame = some hi) : lo ≤ hi := by
  unfold histLo at hlo
  set fl := (realVals frame).filter (fun x => decide (ZEROLOGPROB < x)) with hfl
  rcases hflc : fl with _ | ⟨x, xs⟩
  · rw [hflc] at hlo; cases hlo
  · rw [hflc] at hlo
    obtain rfl : xs.foldl min x - 1 = lo := Option.some_inj.mp hlo
    have hm : xs.foldl min x ∈ x :: xs := foldl_min_mem xs x
    have hmem : xs.foldl min x ∈ realVals frame := by
      have : xs.foldl min x ∈ fl := by rw [hflc]; exact hm
      exact List.mem_of_mem_filter this
    have hle : ((xs.foldl min x : ℝ) : LogVal) ≤ myMax frame :=
      le_myMax_of_mem (mem_realVals hmem)
    rw [histHi_myMax hhi] at hle
    have := WithBot.coe_le_coe.mp hle
    linarith

theorem edgeAt_mono {lo hi : ℝ} (hlh : lo ≤ hi) (nb : ℕ) {j j' : ℕ} (hj : j ≤ j') :
    edgeAt lo hi nb j ≤ edgeAt lo hi nb j' := by
  unfold edgeAt
  have hnn : (0 : ℝ) ≤ (hi - lo) / nb := by
    apply div_nonneg (by linarith)
    exact Nat.cast_nonneg nb
  have : (j : ℝ) * ((hi - lo) / nb) ≤ (j' : ℝ) * ((hi - lo) / nb) :=
    mul_le_mul_of_nonneg_right (Nat.cast_le.mpr hj) hnn
  calc lo + (j : ℝ) * (hi - lo) / nb = lo + (j : ℝ) * ((hi - lo) / nb) := by ring
  _ ≤ lo + (j' : ℝ) * ((hi - lo) / nb) := by linarith
  _ = lo + (j' : ℝ) * (hi - lo) / nb := by ring

/-- C5 (amended): when `maxrank = mr ≠ 0` is set and the numpy error branches are
not hit (some entry exceeds `ZEROLOGPROB`, and the reverse cumulative bin count
reaches `m = min mr stateCount` at some bin), `_prune_states` returns exactly the
states whose value is at or above `max (beamThreshold, rankThreshold)`, where the
rank threshold is the UPPER edge of the histogram bin at which the reverse
cumulative count FIRST reaches `m` — i.e. `edgeAt lo hi nb (nb - k0)` for the least
such reversed index `k0` (one bin above the edge the claim describes). -/
theorem c5_rank_threshold_upper_edge (frame : List LogVal) (mr : ℕ) (beam : LogVal)
    (lo hi : ℝ) (k0 : ℕ) (hmr : mr ≠ 0)
    (hlo : histLo frame = some lo) (hhi : histHi frame = some hi)
    (hk0 : k0 < 3 * frame.length)
    (hreach : min mr frame.length ≤
      revCumCount (realVals frame) lo hi (3 * frame.length) k0)
    (hleast : ∀ j < k0, revCumCount (realVals frame) lo hi (3 * frame.length) j
        < min mr frame.length) :
    pruneStates frame (some mr) beam =
      (List.range frame.length).filter (fun i =>
        decide (max (logsum frame + beam)
          ((edgeAt lo hi (3 * frame.length) (3 * frame.length - k0) : ℝ) : LogVal)
          ≤ frame.getD i ⊥)) := by
  have hmax : List.maximum (rankCandidates (realVals frame) lo hi (3 * frame.length)
      (min mr frame.length))
      = ((edgeAt lo hi (3 * frame.length) (3 * frame.length - k0) : ℝ) : WithBot ℝ) := by
    rw [List.maximum_eq_coe_iff]
    constructor
    · apply List.mem_filterMap.mpr
      exact ⟨k0, List.mem_range.mpr hk0, by rw [if_pos hreach]⟩
    · intro e he
      obtain ⟨k, hk, hke⟩ := List.mem_filterMap.mp he
      by_cases hcond : min mr frame.length ≤
          revCumCount (realVals frame) lo hi (3 * frame.length) k
      · rw [if_pos hcond] at hke
        obtain rfl : edgeAt lo hi (3 * frame.length) (3 * frame.length - k) = e :=
          Option.some_inj.mp hke
        have hkk0 : k0 ≤ k := by
          by_contra hlt
          push_neg at hlt
          exact absurd hcond (not_le.mpr (hleast k hlt))
        exact edgeAt_mono (histLo_le_histHi hlo hhi) _ (Nat.sub_le_sub_left hkk0 _)
      · rw [if_neg hcond] at hke
        cases hke
  unfold pruneStates
  rw [hlo, hhi]
  simp only [if_neg hmr, hmax]

theorem c5_rank_threshold_upper_edge_witness :
    ((2 : ℕ) ≠ 0
        ∧ histLo pruneCE = some (-501)
        ∧ histHi pruneCE = some 0
        ∧ 5 < 3 * pruneCE.length
        ∧ min 2 pruneCE.length ≤
            revCumCount (realVals pruneCE) (-501) 0 (3 * pruneCE.length) 5
        ∧ (∀ j < 5, revCumCount (realVals pruneCE) (-501) 0 (3 * pruneCE.length) j
            < min 2 pruneCE.length))
      ∧ pruneStates pruneCE (some 2) ⊥ =
        (List.range pruneCE.length).filter (fun i =>
          decide (max (logsum pruneCE + ⊥)
            ((edgeAt (-501) 0 (3 * pruneCE.length) (3 * pruneCE.length - 5) : ℝ) : LogVal)
            ≤ pruneCE.getD i ⊥)) := by
  have hlen : pruneCE.length = 2 := rfl
  have hreach : min 2 pruneCE.length ≤
      revCumCount (realVals pruneCE) (-501) 0 (3 * pruneCE.length) 5 := by
    rw [hlen, realVals_ce]
    norm_num [revCumCount, hstList_ce]
  have hleast : ∀ j < 5, revCumCount (realVals pruneCE) (-501) 0 (3 * pruneCE.length) j
      < min 2 pruneCE.length := by
    rw [hlen, realVals_ce]
    intro j hj
    interval_cases j <;> norm_num [revCumCount, hstList_ce]
  exact ⟨⟨by decide, histLo_ce, histHi_ce, by rw [hlen]; norm_num, hreach, hleast⟩,
    c5_rank_threshold_upper_edge pruneCE 2 ⊥ (-501) 0 5 (by decide) histLo_ce histHi_ce
      (by rw [hlen]; norm_num) hreach hleast⟩

/-- C2 counterexample: on the frame `[0, -500]`, pruning with
`maxrank = stateCount = 2` and `beamlogprob = -∞` does NOT return the same
active-state set as no pruning at all — it drops state 1. -/
theorem c2_counterexample :
    pruneStates pruneCE (some 2) ⊥ ≠ pruneStates pruneCE none ⊥ := by
  rw [pruneStates_ce, pruneStates_none_bot]
  decide

/-- C2 (amended): with `maxrank = None` and `beamlogprob = -∞`, `_prune_states`
returns all state indices; with `maxrank = stateCount` and `beamlogprob = -∞` the
result is not in general the full set — on the frame `[0, -500]` only state 0
survives the histogram rank threshold. -/
theorem c2_noop_pruning :
    (∀ frame : List LogVal, pruneStates frame none ⊥ = List.range frame.length)
      ∧ pruneStates pruneCE (some 2) ⊥ = [0]
      ∧ pruneStates pruneCE (some 2) ⊥ ≠ List.range pruneCE.length := by
  refine ⟨pruneStates_none_bot, pruneStates_ce, ?_⟩
  rw [pruneStates_ce]
  decide

/-- C5 counterexample: on the frame `[0, -500]` with `maxrank = 2` and
`beamlogprob = -∞`, the code returns `[0]`, while the set predicted by the claim's
rank-threshold description (smallest bin edge whose at-or-above state count reaches
`min(maxrank, stateCount)`, here the edge `-501`) is `[0, 1]`. -/
theorem c5_counterexample :
    pruneStates pruneCE (some 2) ⊥ = [0]
      ∧ claimActiveSet pruneCE 2 ⊥ = [0, 1]
      ∧ pruneStates pruneCE (some 2) ⊥ ≠ claimActiveSet pruneCE 2 ⊥ := by
  refine ⟨pruneStates_ce, claimActiveSet_ce, ?_⟩
  rw [pruneStates_ce, claimActiveSet_ce]
  decide

/-- C6: the backward pass returns an identical backward lattice for any two values of
its `maxrank` and `beamlogprob` arguments — its internal pruning call hard-codes
`(None, -50)`, so the caller-supplied pruning parameters cannot influence the
output (two-run noninterference). -/
theorem c6_backward_ignores_pruning_args (lt : List (List LogVal)) (n : ℕ)
    (f fwdlat : List (List LogVal)) (mr₁ mr₂ : Option ℕ) (b₁ b₂ : LogVal) :
    doBackwardPass lt n f fwdlat mr₁ b₁ = doBackwardPass lt n f fwdlat mr₂ b₂ := rfl

/-- C8: assigning `startprob` fails with `ShapeMismatch` exactly when the length
differs from `nstates`, fails with `InvalidDistribution` exactly when the length is
right but the sum is not within tolerance of 1, succeeds (storing the new vector,
everything else unchanged) exactly when both checks pass, and a model with
`nstates = 3` and a length-2 `startprob` cannot be constructed.  (In this pure
embedding a failed setter returns no model at all, so the caller's previously
stored parameters are trivially unchanged, mirroring the source, which raises
before assigning to the store.) -/
theorem c8_startprob_validation :
    (∀ (m : HmmModel) (v : List ℚ),
        setStartprob m v = .error .shapeMismatch ↔ v.length ≠ m.nstates)
      ∧ (∀ (m : HmmModel) (v : List ℚ),
        setStartprob m v = .error .invalidDistribution ↔
          (v.length = m.nstates ∧ ¬ almost_equal v.sum 1))
      ∧ (∀ (m : HmmModel) (v : List ℚ),
        setStartprob m v = .ok ⟨m.nstates, v, m.transmat⟩ ↔
          (v.length = m.nstates ∧ almost_equal v.sum 1))
      ∧ (∀ a b : ℚ, mkHmmModel 3 (some [a, b]) none = .error .shapeMismatch) := by
  refine ⟨?_, ?_, ?_, ?_⟩
  · intro m v
    unfold setStartprob
    split_ifs with h1 h2 <;> simp_all
  · intro m v
    unfold setStartprob
    split_ifs with h1 h2 <;> simp_all
  · intro m v
    unfold setStartprob
    split_ifs with h1 h2 <;> simp_all
  · intro a b
    rfl

/-- C9 (code bug): `_init` with `'s'` (resp. `'t'`) in `params` does not reset the
stored `startprob` (resp. `transmat`): the in-place assignment writes into the
temporary array returned by the property getter.  Evaluated at a concrete model,
the parameters after `_init` are unchanged, not uniform. -/
theorem c9_init_does_not_reset :
    (hmmBaseInit ⟨2, [3/10, 7/10], [[1/2, 1/2], [1/2, 1/2]]⟩ (['s', 't'] : List Char)).startprob
        = [3/10, 7/10]
      ∧ (hmmBaseInit ⟨2, [3/10, 7/10], [[1/2, 1/2], [1/2, 1/2]]⟩ (['s', 't'] : List Char)).transmat
        = [[1/2, 1/2], [1/2, 1/2]]
      ∧ ([3/10, 7/10] : List ℚ) ≠ [1/2, 1/2] :=
  ⟨rfl, rfl, by norm_num⟩

/-- C10 (amended): for every `n ≥ 1`, `rvs n` returns exactly `n` observations. -/
theorem c10_rvs_length {α : Type} (m : HmmModel) (emit : ℕ → ℕ → α) (rands : ℕ → ℚ)
    (n : ℕ) (hn : 1 ≤ n) : (rvs m emit rands n).length = n := by
  have hloop : ∀ (fuel k curr : ℕ), (rvsLoop m emit rands k curr fuel).length = fuel := by
    intro fuel
    induction fuel with
    | zero => intro k curr; rfl
    | succ fl ih => intro k curr; simp [rvsLoop, ih]
  simp only [rvs, List.length_cons, hloop]
  omega

theorem c10_rvs_length_witness :
    1 ≤ 3 ∧ (rvs (⟨2, [1/2, 1/2], [[1/2, 1/2], [1/2, 1/2]]⟩ : HmmModel)
      (fun _ s => s) (fun _ => 1/2) 3).length = 3 :=
  ⟨by decide, c10_rvs_length _ _ _ 3 (by decide)⟩

/-- C10 counterexample: `rvs 0` returns 1 observation, not 0 — the initial sample is
emitted before the `xrange(n-1)` loop. -/
theorem c10_counterexample :
    (rvs (⟨2, [1/2, 1/2], [[1/2, 1/2], [1/2, 1/2]]⟩ : HmmModel)
        (fun _ s => s) (fun _ => 1/2) 0).length = 1
      ∧ (1 : ℕ) ≠ 0 :=
  ⟨rfl, by decide⟩

/-! Lemmas for the forward-pass claims. -/

theorem logsum_single_coe (a : ℝ) : logsum [((a : ℝ) : LogVal)] = ((a : ℝ) : LogVal) := by
  rw [logsum]
  simp only [List.map_cons, List.map_nil, eexp_coe, List.sum_cons, List.sum_nil, add_zero]
  rw [elog_pos_eq (Real.exp_pos a), Real.log_exp]

theorem logsum_single_bot : logsum [(⊥ : LogVal)] = ⊥ := by
  simp [logsum, eexp_bot, elog]

theorem forwardStep_none_bot (lt : List (List LogVal)) (n : ℕ) {prev : List LogVal}
    (h : prev.length = n) (fn : List LogVal) :
    forwardStep lt n none ⊥ prev fn = specFwdStep lt n prev fn := by
  unfold forwardStep specFwdStep
  rw [pruneStates_none_bot, h]

theorem specFwdStep_length (lt : List (List LogVal)) (n : ℕ) (prev fn : List LogVal) :
    (specFwdStep lt n prev fn).length = n := by
  simp [specFwdStep]

/-- With pruning disabled, the rows built by the source's forward recursion coincide
with the rows of the specification's all-sources recursion. -/
theorem forward_rows_eq_spec (lt : List (List LogVal)) (n : ℕ) :
    ∀ (rest : List (List LogVal)) (prev : List LogVal), prev.length = n →
      rest.scanl (forwardStep lt n none ⊥) prev = rest.scanl (specFwdStep lt n) prev := by
  intro rest
  induction rest with
  | nil => intro prev _; rfl
  | cons fn rest ih =>
    intro prev hprev
    rw [List.scanl_cons, List.scanl_cons, forwardStep_none_bot lt n hprev fn,
      ih _ (specFwdStep_length lt n prev fn)]

theorem scanl_ne_nil {α β : Type} (g : β → α → β) (b : β) (l : List α) :
    l.scanl g b ≠ [] := by
  cases l with
  | nil => simp [List.scanl_nil]
  | cons x t => simp [List.scanl_cons]

theorem getLastD_map_ne {α β : Type} (g : α → β) (d : α) :
    ∀ (l : List α) (d' : β), l ≠ [] → (l.map g).getLastD d' = g (l.getLastD d) := by
  intro l
  induction l with
  | nil => intro d' h; exact absurd rfl h
  | cons x t ih =>
    intro d' _
    cases t with
    | nil => rfl
    | cons y t' =>
      rw [List.map_cons, List.getLastD_cons, List.getLastD_cons]
      exact ih d' (List.cons_ne_nil y t')

/-- C1 (amended): with pruning disabled, `lpdf` equals `logSumExp` of the last row of
the specification's unpruned forward lattice AFTER the final clamp that forces
entries at or below `ZEROLOGPROB` to `-∞`; the recursion itself is unaffected by the
clamp, which the source applies only after the whole lattice is built. -/
theorem c1_forward_unpruned_clamped (ls : List LogVal) (lt : List (List LogVal)) (n : ℕ)
    (f : List (List LogVal)) (hls : ls.length = n) (hf : ∀ r ∈ f, r.length = n)
    (hne : f ≠ []) :
    lpdf ls lt n f none ⊥ =
      logsum (((specFwdLattice ls lt n f).getLastD []).map clampVal) := by
  cases f with
  | nil => exact absurd rfl hne
  | cons f0 rest =>
    have h0 : (List.zipWith (· + ·) ls f0).length = n := by
      rw [List.length_zipWith, hls, hf f0 (List.mem_cons_self f0 rest), min_self]
    show logsum (((rest.scanl (forwardStep lt n none ⊥) (List.zipWith (· + ·) ls f0)).map
        (fun r => r.map clampVal)).getLastD []) = _
    rw [forward_rows_eq_spec lt n rest _ h0,
      getLastD_map_ne (fun r => List.map clampVal r) [] _ [] (scanl_ne_nil _ _ _)]
    rfl

theorem c1_forward_unpruned_clamped_witness :
    ([((0 : ℝ) : LogVal)].length = 1
        ∧ (∀ r ∈ [[((0 : ℝ) : LogVal)]], r.length = 1)
        ∧ ([[((0 : ℝ) : LogVal)]] : List (List LogVal)) ≠ [])
      ∧ lpdf [((0 : ℝ) : LogVal)] [[((0 : ℝ) : LogVal)]] 1 [[((0 : ℝ) : LogVal)]] none ⊥ =
          logsum (((specFwdLattice [((0 : ℝ) : LogVal)] [[((0 : ℝ) : LogVal)]] 1
            [[((0 : ℝ) : LogVal)]]).getLastD []).map clampVal) :=
  ⟨⟨rfl, by simp, by simp⟩,
    c1_forward_unpruned_clamped _ _ _ _ rfl (by simp) (by simp)⟩

/-- C1 counterexample: a valid one-state model (`startprob = [1]`, `transmat = [[1]]`)
and a single frame whose log-likelihood is `-2e200` (as a far-tail Gaussian
emission produces).  The claim as stated predicts `lpdf = -2e200`, the `logsum` of
the unpruned lattice's last row; the code clamps the `-2e200` entry to `-∞` before
the final `logsum` and returns `-∞`. -/
theorem c1_counterexample :
    lpdf [((0 : ℝ) : LogVal)] [[((0 : ℝ) : LogVal)]] 1
        [[((-(2 * 10 ^ 200) : ℝ) : LogVal)]] none ⊥ = ⊥
      ∧ logsum ((specFwdLattice [((0 : ℝ) : LogVal)] [[((0 : ℝ) : LogVal)]] 1
          [[((-(2 * 10 ^ 200) : ℝ) : LogVal)]]).getLastD [])
        = ((-(2 * 10 ^ 200) : ℝ) : LogVal)
      ∧ (⊥ : LogVal) ≠ ((-(2 * 10 ^ 200) : ℝ) : LogVal) := by
  have hrow : List.zipWith (· + ·) [((0 : ℝ) : LogVal)]
      [((-(2 * 10 ^ 200) : ℝ) : LogVal)] = [((-(2 * 10 ^ 200) : ℝ) : LogVal)] := by
    simp [← WithBot.coe_add]
  have hclamp : clampVal ((-(2 * 10 ^ 200) : ℝ) : LogVal) = ⊥ := by
    rw [clampVal, if_pos]
    exact WithBot.coe_le_coe.mpr (by norm_num [ZEROLOGPROB])
  refine ⟨?_, ?_, by simp⟩
  · simp only [lpdf, doForwardPass]
    rw [hrow]
    simp only [List.scanl_nil, List.map_cons, List.map_nil, hclamp, List.getLastD_cons,
      List.getLastD_nil]
    exact logsum_single_bot
  · simp only [specFwdLattice]
    rw [hrow]
    simp only [List.scanl_nil, List.getLastD_cons, List.getLastD_nil]
    exact logsum_single_coe _

/-! Lemmas for the posterior-normalization claim. -/

theorem esub_bot_left (w : LogVal) : esub ⊥ w = ⊥ := rfl

theorem esub_coe_coe (x y : ℝ) :
    esub ((x : ℝ) : LogVal) ((y : ℝ) : LogVal) = ((x - y : ℝ) : LogVal) := rfl

theorem clampVal_coe_of_gt {x : ℝ} (h : ZEROLOGPROB < x) :
    clampVal ((x : ℝ) : LogVal) = ((x : ℝ) : LogVal) := by
  rw [clampVal, if_neg]
  exact fun hc => absurd (WithBot.coe_le_coe.mp hc) (not_le.mpr h)

theorem list_sum_div (l : List ℝ) (c : ℝ) : (l.map (fun x => x / c)).sum = l.sum / c := by
  induction l with
  | nil => simp
  | cons x t ih => simp [ih, add_div]

/-- A `gamma` row with at least one finite entry is renormalized to total mass
exactly 1 by `exp (gamma - logsum gamma)`. -/
theorem normalizeRow_sum (g : List LogVal) (hex : ∃ v ∈ g, v ≠ ⊥) :
    (g.map (fun v => eexp (esub v (logsum g)))).sum = 1 := by
  obtain ⟨v, hv, hvb⟩ := hex
  have hS : 0 < (g.map eexp).sum := by
    induction v using WithBot.recBotCoe with
    | bot => exact absurd rfl hvb
    | coe a =>
      have hmem : eexp ((a : ℝ) : LogVal) ∈ g.map eexp := List.mem_map_of_mem eexp hv
      have hle := List.single_le_sum
        (fun x hx => by obtain ⟨w, _, rfl⟩ := List.mem_map.mp hx; exact eexp_nonneg w) _ hmem
      calc (0 : ℝ) < Real.exp a := Real.exp_pos a
      _ ≤ _ := by simpa [eexp_coe] using hle
  have hls : logsum g = ((Real.log ((g.map eexp).sum) : ℝ) : LogVal) := by
    rw [logsum, elog_pos_eq hS]
  have hmap : g.map (fun v => eexp (esub v (logsum g))) =
      g.map (fun v => eexp v / (g.map eexp).sum) := by
    apply List.map_congr_left
    intro w _
    induction w using WithBot.recBotCoe with
    | bot => simp [hls, esub_bot_left, eexp_bot]
    | coe b =>
      rw [hls, esub_coe_coe, eexp_coe, Real.exp_sub, Real.exp_log hS, eexp_coe]
  rw [hmap, show g.map (fun v => eexp v / (g.map eexp).sum) =
      (g.map eexp).map (fun x => x / (g.map eexp).sum) by rw [List.map_map]; rfl,
    list_sum_div, div_self hS.ne']

theorem getD_map_lt {α β : Type} (fn : α → β) (l : List α) (i : ℕ) (hi : i < l.length)
    (d : α) (d' : β) : (l.map fn).getD i d' = fn (l.getD i d) := by
  rw [List.getD_eq_getElem _ _ (by simpa using hi), List.getD_eq_getElem _ _ hi,
    List.getElem_map]

/-- C7 (amended): every posteriors row whose `gamma` row has at least one finite
entry sums to exactly 1, thanks to the per-frame renormalization in `eval` — under
any pruning setting.  (A `gamma` row that is entirely `-∞` is NOT normalized: the
code produces NaN there, see the counterexample.) -/
theorem c7_posterior_rows_normalized (ls : List LogVal) (lt : List (List LogVal)) (n : ℕ)
    (f : List (List LogVal)) (maxrank : Option ℕ) (beam : LogVal) (i : ℕ)
    (hex : ∃ v ∈ (gammaOf ls lt n f maxrank beam).getD i [], v ≠ ⊥) :
    ((hmmEval ls lt n f maxrank beam).2.getD i []).sum = 1 := by
  have hi : i < (gammaOf ls lt n f maxrank beam).length := by
    by_contra hlt
    push_neg at hlt
    rw [List.getD_eq_default _ _ hlt] at hex
    obtain ⟨v, hv, _⟩ := hex
    cases hv
  show (((gammaOf ls lt n f maxrank beam).map
      (fun g => g.map (fun v => eexp (esub v (logsum g))))).getD i []).sum = 1
  rw [getD_map_lt _ _ _ hi []]
  exact normalizeRow_sum _ (by simpa using hex)

theorem zipadd_zero_zero :
    List.zipWith (· + ·) [((0 : ℝ) : LogVal)] [((0 : ℝ) : LogVal)] = [((0 : ℝ) : LogVal)] := by
  simp [← WithBot.coe_add]

theorem gammaOf_trivial :
    gammaOf [((0 : ℝ) : LogVal)] [[((0 : ℝ) : LogVal)]] 1 [[((0 : ℝ) : LogVal)]] none ⊥
      = [[((0 : ℝ) : LogVal)]] := by
  have hfwd : (doForwardPass [((0 : ℝ) : LogVal)] [[((0 : ℝ) : LogVal)]] 1
      [[((0 : ℝ) : LogVal)]] none ⊥).2 = [[((0 : ℝ) : LogVal)]] := by
    simp only [doForwardPass, zipadd_zero_zero, List.scanl_nil, List.map_cons, List.map_nil,
      clampVal_coe_of_gt (show ZEROLOGPROB < (0 : ℝ) by norm_num [ZEROLOGPROB])]
  have hbwd : doBackwardPass [[((0 : ℝ) : LogVal)]] 1 [[((0 : ℝ) : LogVal)]]
      [[((0 : ℝ) : LogVal)]] none ⊥ = [[((0 : ℝ) : LogVal)]] := by
    have hr : List.range (1 : ℕ) = [0] := rfl
    simp only [doBackwardPass, List.length_cons, List.length_nil, hr, List.map_cons,
      List.map_nil, bwdRowAux, List.replicate,
      clampVal_coe_of_gt (show ZEROLOGPROB < (0 : ℝ) by norm_num [ZEROLOGPROB])]
  rw [gammaOf, hfwd, hbwd]
  simp [← WithBot.coe_add]

theorem c7_posterior_rows_normalized_witness :
    (∃ v ∈ (gammaOf [((0 : ℝ) : LogVal)] [[((0 : ℝ) : LogVal)]] 1
        [[((0 : ℝ) : LogVal)]] none ⊥).getD 0 [], v ≠ ⊥)
      ∧ ((hmmEval [((0 : ℝ) : LogVal)] [[((0 : ℝ) : LogVal)]] 1
        [[((0 : ℝ) : LogVal)]] none ⊥).2.getD 0 []).sum = 1 :=
  have hex : ∃ v ∈ (gammaOf [((0 : ℝ) : LogVal)] [[((0 : ℝ) : LogVal)]] 1
      [[((0 : ℝ) : LogVal)]] none ⊥).getD 0 [], v ≠ ⊥ := by
    rw [gammaOf_trivial]
    exact ⟨((0 : ℝ) : LogVal), by simp, by simp⟩
  ⟨hex, c7_posterior_rows_normalized _ _ _ _ _ _ 0 hex⟩

/-- C7 counterexample: a valid one-state model and one frame with log-likelihood
`-2e200`.  The forward lattice entry is clamped to `-∞`, the whole `gamma` row is
`-∞`, and the "normalized" posteriors row sums to 0, not 1 (the source computes
`exp(-inf - -inf) = NaN` there). -/
theorem c7_counterexample :
    ((hmmEval [((0 : ℝ) : LogVal)] [[((0 : ℝ) : LogVal)]] 1
        [[((-(2 * 10 ^ 200) : ℝ) : LogVal)]] none ⊥).2.getD 0 []).sum = 0
      ∧ (0 : ℝ) ≠ 1 := by
  have hz : List.zipWith (· + ·) [((0 : ℝ) : LogVal)]
      [((-(2 * 10 ^ 200) : ℝ) : LogVal)] = [((-(2 * 10 ^ 200) : ℝ) : LogVal)] := by
    simp [← WithBot.coe_add]
  have hclamp : clampVal ((-(2 * 10 ^ 200) : ℝ) : LogVal) = ⊥ := by
    rw [clampVal, if_pos]
    exact WithBot.coe_le_coe.mpr (by norm_num [ZEROLOGPROB])
  have hfwd : (doForwardPass [((0 : ℝ) : LogVal)] [[((0 : ℝ) : LogVal)]] 1
      [[((-(2 * 10 ^ 200) : ℝ) : LogVal)]] none ⊥).2 = [[(⊥ : LogVal)]] := by
    simp only [doForwardPass, hz, List.scanl_nil, List.map_cons, List.map_nil, hclamp]
  have hbwd : doBackwardPass [[((0 : ℝ) : LogVal)]] 1 [[((-(2 * 10 ^ 200) : ℝ) : LogVal)]]
      [[(⊥ : LogVal)]] none ⊥ = [[((0 : ℝ) : LogVal)]] := by
    have hr : List.range (1 : ℕ) = [0] := rfl
    simp only [doBackwardPass, List.length_cons, List.length_nil, hr, List.map_cons,
      List.map_nil, bwdRowAux, List.replicate,
      clampVal_coe_of_gt (show ZEROLOGPROB < (0 : ℝ) by norm_num [ZEROLOGPROB])]
  have hgamma : gammaOf [((0 : ℝ) : LogVal)] [[((0 : ℝ) : LogVal)]] 1
      [[((-(2 * 10 ^ 200) : ℝ) : LogVal)]] none ⊥ = [[(⊥ : LogVal)]] := by
    rw [gammaOf, hfwd, hbwd]
    simp
  refine ⟨?_, by norm_num⟩
  show (((gammaOf _ _ _ _ _ _).map
      (fun g => g.map (fun v => eexp (esub v (logsum g))))).getD 0 []).sum = 0
  rw [hgamma]
  simp [esub_bot_left, eexp_bot]

/-! Lemmas for the Viterbi-versus-forward score claim. -/

theorem myMax_cons (x : LogVal) (l : List LogVal) : myMax (x :: l) = max x (myMax l) := rfl

theorem myMax_mono : ∀ {l₁ l₂ : List LogVal}, List.Forall₂ (· ≤ ·) l₁ l₂ →
    myMax l₁ ≤ myMax l₂ := by
  intro l₁ l₂ h
  induction h with
  | nil => exact le_refl ⊥
  | cons hab _ ih => rw [myMax_cons, myMax_cons]; exact max_le_max hab ih

theorem forall2_map_same {α : Type} {R : LogVal → LogVal → Prop} (f g : α → LogVal) :
    ∀ (l : List α), (∀ a ∈ l, R (f a) (g a)) → List.Forall₂ R (l.map f) (l.map g) := by
  intro l
  induction l with
  | nil => intro _; simp only [List.map_nil]; exact List.Forall₂.nil
  | cons x t ih =>
    intro h
    simp only [List.map_cons]
    exact List.Forall₂.cons (h x (List.mem_cons_self x t))
      (ih (fun a ha => h a (List.mem_cons_of_mem x ha)))

theorem forwardStep_length (lt : List (List LogVal)) (n : ℕ) (mr : Option ℕ) (b : LogVal)
    (prev fn : List LogVal) : (forwardStep lt n mr b prev fn).length = n := by
  simp [forwardStep]

theorem viterbiStepFst_length (lt : List (List LogVal)) (n : ℕ) (mr : Option ℕ) (b : LogVal)
    (prev fn : List LogVal) : (viterbiStep lt n mr b prev fn).1.length = n := by
  simp [viterbiStep]

/-- With pruning disabled, one Viterbi step stays pointwise below one forward step:
the max over all sources is at most the log-sum over all sources. -/
theorem viterbiStep_le_forwardStep (lt : List (List LogVal)) (n : ℕ)
    {pv pf : List LogVal} (hle : List.Forall₂ (· ≤ ·) pv pf)
    (hpv : pv.length = n) (hpf : pf.length = n) (fn : List LogVal) :
    List.Forall₂ (· ≤ ·) (viterbiStep lt n none ⊥ pv fn).1
      (forwardStep lt n none ⊥ pf fn) := by
  unfold viterbiStep forwardStep
  rw [pruneStates_none_bot, pruneStates_none_bot, hpv, hpf]
  apply forall2_map_same
  intro d _
  have hinner : List.Forall₂ (· ≤ ·)
      ((List.range n).map (fun s => transAt lt s d + pv.getD s ⊥))
      ((List.range n).map (fun s => transAt lt s d + pf.getD s ⊥)) :=
    forall2_map_same _ _ _ (fun s _ => add_le_add_left (forall2_le_getD hle s) _)
  have h1 : myMax ((List.range n).map (fun s => transAt lt s d + pv.getD s ⊥)) ≤
      logsum ((List.range n).map (fun s => transAt lt s d + pf.getD s ⊥)) :=
    le_trans (myMax_mono hinner) (myMax_le_logsum _)
  exact add_le_add_right h1 _

theorem viterbi_rows_le_forward_rows (lt : List (List LogVal)) (n : ℕ) :
    ∀ (rest : List (List LogVal)) (pv pf : List LogVal),
      List.Forall₂ (· ≤ ·) pv pf → pv.length = n → pf.length = n →
      List.Forall₂ (List.Forall₂ (· ≤ ·)) (viterbiAux lt n none ⊥ pv rest).1
        (rest.scanl (forwardStep lt n none ⊥) pf) := by
  intro rest
  induction rest with
  | nil =>
    intro pv pf h _ _
    exact List.Forall₂.cons h List.Forall₂.nil
  | cons fn rest ih =>
    intro pv pf h hpv hpf
    rw [List.scanl_cons]
    simp only [viterbiAux]
    refine List.Forall₂.cons h ?_
    exact ih _ _ (viterbiStep_le_forwardStep lt n h hpv hpf fn)
      (viterbiStepFst_length lt n none ⊥ pv fn) (forwardStep_length lt n none ⊥ pf fn)

theorem forall2_rows_clamp {L₁ L₂ : List (List LogVal)}
    (h : List.Forall₂ (List.Forall₂ (· ≤ ·)) L₁ L₂) :
    List.Forall₂ (List.Forall₂ (· ≤ ·)) (L₁.map (fun r => r.map clampVal))
      (L₂.map (fun r => r.map clampVal)) := by
  induction h with
  | nil => exact List.Forall₂.nil
  | cons hab _ ih => exact List.Forall₂.cons (forall2_clamp hab) ih

/-- C4 (amended): with pruning disabled (`maxrank = None`, `beamlogprob = -∞`),
`decode`'s score — `logSumExp` of the final Viterbi lattice row — never exceeds
`lpdf` on the same inputs.  (With beam pruning enabled the bound can fail, because
the two passes prune different active-source sets; see the counterexample.) -/
theorem c4_viterbi_le_forward_unpruned (ls : List LogVal) (lt : List (List LogVal))
    (n : ℕ) (f : List (List LogVal)) (hls : ls.length = n)
    (hf : ∀ r ∈ f, r.length = n) (hne : f ≠ []) :
    (decodeHmm ls lt n f none ⊥).1 ≤ lpdf ls lt n f none ⊥ := by
  cases f with
  | nil => exact absurd rfl hne
  | cons f0 rest =>
    have h0 : (List.zipWith (· + ·) ls f0).length = n := by
      rw [List.length_zipWith, hls, hf f0 (List.mem_cons_self f0 rest), min_self]
    have hrows := viterbi_rows_le_forward_rows lt n rest _ _
      (List.forall₂_refl _) h0 h0
    have hlast := forall2_getLastD (forall2_rows_clamp hrows) List.Forall₂.nil
    exact logsum_mono hlast

theorem myMax_single (x : LogVal) : myMax [x] = x := by
  rw [myMax_cons, myMax, List.foldr_nil, max_eq_left bot_le]


theorem lgv_add {p q : ℝ} (hp : 0 < p) (hq : 0 < q) : lgv p + lgv q = lgv (p * q) := by
  unfold lgv
  exact coe_log_add hp hq

theorem logsum_pair_lgv {p q : ℝ} (hp : 0 < p) (hq : 0 < q) :
    logsum [lgv p, lgv q] = lgv (p + q) := by
  unfold lgv
  exact logsum_pair_log hp hq

theorem logsum_single_lgv {p : ℝ} (hp : 0 < p) : logsum [lgv p] = lgv p := by
  unfold lgv
  exact logsum_single_log hp

theorem lgv_le_lgv {p q : ℝ} (hp : 0 < p) (hq : 0 < q) : lgv p ≤ lgv q ↔ p ≤ q := by
  unfold lgv
  exact coe_log_le_coe_log hp hq

theorem zerologprob_lt_log {q : ℝ} (h : 1 / (1 + 10 ^ 200) < q) :
    ZEROLOGPROB < Real.log q := by
  have h0 : (0 : ℝ) < 1 / (1 + 10 ^ 200) := by positivity
  have hq : 0 < q := h0.trans h
  by_contra hc
  push_neg at hc
  have h2 : q ≤ Real.exp ZEROLOGPROB := by
    calc q = Real.exp (Real.log q) := (Real.exp_log hq).symm
    _ ≤ Real.exp ZEROLOGPROB := Real.exp_le_exp.mpr hc
  have h3 : Real.exp ZEROLOGPROB ≤ 1 / (1 + 10 ^ 200) := by
    rw [ZEROLOGPROB, Real.exp_neg, one_div]
    apply inv_anti₀ (by positivity)
    calc (1 + 10 ^ 200 : ℝ) = 10 ^ 200 + 1 := by ring
    _ ≤ Real.exp (10 ^ 200) := Real.add_one_le_exp _
  exact absurd (le_trans h2 h3) (not_le.mpr h)

theorem clamp_lgv {q : ℝ} (h : 1 / (1 + 10 ^ 200) < q) : clampVal (lgv q) = lgv q :=
  clampVal_coe_of_gt (zerologprob_lt_log h)

theorem myMax_pair_right {x y : LogVal} (h : x ≤ y) : myMax [x, y] = y := by
  rw [myMax_cons, myMax_cons, myMax, List.foldr_nil, max_eq_left (bot_le : (⊥ : LogVal) ≤ y),
    max_eq_right h]

theorem myMax_pair_left {x y : LogVal} (h : y ≤ x) : myMax [x, y] = x := by
  rw [myMax_cons, myMax_cons, myMax, List.foldr_nil, max_eq_left (bot_le : (⊥ : LogVal) ≤ y),
    max_eq_left h]

/-- Beam pruning of a two-state frame of finite log values: a state survives iff its
probability is at or above `(p + q) * b`, the frame total times the beam factor. -/
theorem pruneStates_pair_lgv {p q b : ℝ} (hp : 0 < p) (hq : 0 < q) (hb : 0 < b) :
    pruneStates [lgv p, lgv q] none (lgv b) =
      (if (p + q) * b ≤ p then [0] else []) ++ (if (p + q) * b ≤ q then [1] else []) := by
  unfold pruneStates
  rw [logsum_pair_lgv hp hq, lgv_add (by positivity) hb]
  have hr : List.range ([lgv p, lgv q].length) = [0, 1] := rfl
  rw [hr]
  simp only [List.filter_cons, List.filter_nil, decide_eq_true_eq, List.getD_cons_zero,
    List.getD_cons_succ, lgv_le_lgv (by positivity : (0 : ℝ) < (p + q) * b) hp,
    lgv_le_lgv (by positivity : (0 : ℝ) < (p + q) * b) hq]
  split_ifs <;> simp


theorem c4_row0 : List.zipWith (· + ·) lsC4 [lgv 1, lgv 1] = [lgv (2/5), lgv (3/5)] := by
  simp only [lsC4, List.zipWith_cons_cons, List.zipWith_nil_right,
    lgv_add (by norm_num : (0:ℝ) < 2/5) (by norm_num : (0:ℝ) < 1),
    lgv_add (by norm_num : (0:ℝ) < 3/5) (by norm_num : (0:ℝ) < 1)]
  norm_num

theorem c4_prune_row0 :
    pruneStates [lgv (2/5), lgv (3/5)] none beamC4 = [0, 1] := by
  rw [beamC4, pruneStates_pair_lgv (by norm_num) (by norm_num) (by norm_num)]
  norm_num

theorem c4_stepF1 :
    forwardStep ltC4 2 none beamC4 [lgv (2/5), lgv (3/5)] [lgv 1, lgv (3/2)]
      = [lgv (18/25), lgv (21/50)] := by
  unfold forwardStep
  rw [c4_prune_row0]
  have hr : List.range 2 = [0, 1] := rfl
  rw [hr]
  simp only [List.map_cons, List.map_nil, transAt, ltC4, List.getD_cons_zero,
    List.getD_cons_succ, List.getD_nil,
    lgv_add (by norm_num : (0:ℝ) < 9/10) (by norm_num : (0:ℝ) < 2/5),
    lgv_add (by norm_num : (0:ℝ) < 3/5) (by norm_num : (0:ℝ) < 3/5),
    lgv_add (by norm_num : (0:ℝ) < 1/10) (by norm_num : (0:ℝ) < 2/5),
    lgv_add (by norm_num : (0:ℝ) < 2/5) (by norm_num : (0:ℝ) < 3/5)]
  norm_num
  rw [logsum_pair_lgv (by norm_num) (by norm_num), logsum_pair_lgv (by norm_num) (by norm_num)]
  norm_num
  rw [lgv_add (by norm_num : (0:ℝ) < 18/25) (by norm_num : (0:ℝ) < 1),
    lgv_add (by norm_num : (0:ℝ) < 7/25) (by norm_num : (0:ℝ) < 3/2)]
  norm_num

theorem c4_prune_row1 :
    pruneStates [lgv (18/25), lgv (21/50)] none beamC4 = [0] := by
  rw [beamC4, pruneStates_pair_lgv (by norm_num) (by norm_num) (by norm_num)]
  norm_num

theorem c4_stepF2 :
    forwardStep ltC4 2 none beamC4 [lgv (18/25), lgv (21/50)] [lgv (1/10), lgv 1]
      = [lgv (81/1250), lgv (9/125)] := by
  unfold forwardStep
  rw [c4_prune_row1]
  have hr : List.range 2 = [0, 1] := rfl
  rw [hr]
  simp only [List.map_cons, List.map_nil, transAt, ltC4, List.getD_cons_zero,
    List.getD_cons_succ, List.getD_nil,
    lgv_add (by norm_num : (0:ℝ) < 9/10) (by norm_num : (0:ℝ) < 18/25),
    lgv_add (by norm_num : (0:ℝ) < 1/10) (by norm_num : (0:ℝ) < 18/25)]
  norm_num
  rw [logsum_single_lgv (by norm_num), logsum_single_lgv (by norm_num)]
  rw [lgv_add (by norm_num : (0:ℝ) < 81/125) (by norm_num : (0:ℝ) < 1/10),
    lgv_add (by norm_num : (0:ℝ) < 9/125) (by norm_num : (0:ℝ) < 1)]
  norm_num

theorem c4_stepV1 :
    (viterbiStep ltC4 2 none beamC4 [lgv (2/5), lgv (3/5)] [lgv 1, lgv (3/2)]).1
      = [lgv (9/25), lgv (9/25)] := by
  unfold viterbiStep
  rw [c4_prune_row0]
  have hr : List.range 2 = [0, 1] := rfl
  rw [hr]
  simp only [List.map_cons, List.map_nil, transAt, ltC4, List.getD_cons_zero,
    List.getD_cons_succ, List.getD_nil,
    lgv_add (by norm_num : (0:ℝ) < 9/10) (by norm_num : (0:ℝ) < 2/5),
    lgv_add (by norm_num : (0:ℝ) < 3/5) (by norm_num : (0:ℝ) < 3/5),
    lgv_add (by norm_num : (0:ℝ) < 1/10) (by norm_num : (0:ℝ) < 2/5),
    lgv_add (by norm_num : (0:ℝ) < 2/5) (by norm_num : (0:ℝ) < 3/5)]
  norm_num
  rw [myMax_pair_right (le_refl (lgv (9/25))),
    myMax_pair_right ((lgv_le_lgv (by norm_num) (by norm_num)).mpr (by norm_num :
      (1/25 : ℝ) ≤ 6/25)),
    lgv_add (by norm_num : (0:ℝ) < 9/25) (by norm_num : (0:ℝ) < 1),
    lgv_add (by norm_num : (0:ℝ) < 6/25) (by norm_num : (0:ℝ) < 3/2)]
  norm_num

theorem c4_prune_rowV1 :
    pruneStates [lgv (9/25), lgv (9/25)] none beamC4 = [0, 1] := by
  rw [beamC4, pruneStates_pair_lgv (by norm_num) (by norm_num) (by norm_num)]
  norm_num

theorem c4_stepV2 :
    (viterbiStep ltC4 2 none beamC4 [lgv (9/25), lgv (9/25)] [lgv (1/10), lgv 1]).1
      = [lgv (81/2500), lgv (18/125)] := by
  unfold viterbiStep
  rw [c4_prune_rowV1]
  have hr : List.range 2 = [0, 1] := rfl
  rw [hr]
  simp only [List.map_cons, List.map_nil, transAt, ltC4, List.getD_cons_zero,
    List.getD_cons_succ, List.getD_nil,
    lgv_add (by norm_num : (0:ℝ) < 9/10) (by norm_num : (0:ℝ) < 9/25),
    lgv_add (by norm_num : (0:ℝ) < 3/5) (by norm_num : (0:ℝ) < 9/25),
    lgv_add (by norm_num : (0:ℝ) < 1/10) (by norm_num : (0:ℝ) < 9/25),
    lgv_add (by norm_num : (0:ℝ) < 2/5) (by norm_num : (0:ℝ) < 9/25)]
  norm_num
  rw [myMax_pair_left ((lgv_le_lgv (by norm_num) (by norm_num)).mpr (by norm_num :
      (27/125 : ℝ) ≤ 81/250)),
    myMax_pair_right ((lgv_le_lgv (by norm_num) (by norm_num)).mpr (by norm_num :
      (9/250 : ℝ) ≤ 18/125)),
    lgv_add (by norm_num : (0:ℝ) < 81/250) (by norm_num : (0:ℝ) < 1/10),
    lgv_add (by norm_num : (0:ℝ) < 18/125) (by norm_num : (0:ℝ) < 1)]
  norm_num

theorem c4_lpdf_eval : lpdf lsC4 ltC4 2 fC4 none beamC4 = lgv (171/1250) := by
  simp only [lpdf, doForwardPass, fC4, List.scanl_cons, List.scanl_nil,
    List.singleton_append, List.cons_append, List.nil_append, c4_row0,
    c4_stepF1, c4_stepF2]
  simp only [List.map_cons, List.map_nil,
    clamp_lgv (by norm_num : (1:ℝ) / (1 + 10 ^ 200) < 2/5),
    clamp_lgv (by norm_num : (1:ℝ) / (1 + 10 ^ 200) < 3/5),
    clamp_lgv (by norm_num : (1:ℝ) / (1 + 10 ^ 200) < 18/25),
    clamp_lgv (by norm_num : (1:ℝ) / (1 + 10 ^ 200) < 21/50),
    clamp_lgv (by norm_num : (1:ℝ) / (1 + 10 ^ 200) < 81/1250),
    clamp_lgv (by norm_num : (1:ℝ) / (1 + 10 ^ 200) < 9/125),
    List.getLastD_cons, List.getLastD_nil]
  rw [logsum_pair_lgv (by norm_num) (by norm_num)]
  norm_num

theorem c4_decode_eval : (decodeHmm lsC4 ltC4 2 fC4 none beamC4).1 = lgv (441/2500) := by
  simp only [decodeHmm, doViterbiPass, fC4, viterbiAux, c4_row0, c4_stepV1, c4_stepV2]
  simp only [List.map_cons, List.map_nil,
    clamp_lgv (by norm_num : (1:ℝ) / (1 + 10 ^ 200) < 2/5),
    clamp_lgv (by norm_num : (1:ℝ) / (1 + 10 ^ 200) < 3/5),
    clamp_lgv (by norm_num : (1:ℝ) / (1 + 10 ^ 200) < 9/25),
    clamp_lgv (by norm_num : (1:ℝ) / (1 + 10 ^ 200) < 81/2500),
    clamp_lgv (by norm_num : (1:ℝ) / (1 + 10 ^ 200) < 18/125),
    List.getLastD_cons, List.getLastD_nil]
  rw [logsum_pair_lgv (by norm_num) (by norm_num)]
  norm_num

/-- C4 counterexample: with beam pruning enabled (`beamlogprob = log (2/5)`,
`maxrank = None`), `decode`'s score EXCEEDS `lpdf` on the same observation sequence
and the same pruning arguments: the forward pass prunes state 1 at frame 1 (its
share of the forward row falls below the beam), while the Viterbi pass keeps it
(its share of the smaller Viterbi row does not), so the Viterbi lattice is not
dominated by the forward lattice. -/
theorem c4_counterexample :
    lpdf lsC4 ltC4 2 fC4 none beamC4 = lgv (171/1250)
      ∧ (decodeHmm lsC4 ltC4 2 fC4 none beamC4).1 = lgv (441/2500)
      ∧ ¬ ((decodeHmm lsC4 ltC4 2 fC4 none beamC4).1 ≤ lpdf lsC4 ltC4 2 fC4 none beamC4) := by
  refine ⟨c4_lpdf_eval, c4_decode_eval, ?_⟩
  rw [c4_lpdf_eval, c4_decode_eval]
  apply not_le.mpr
  exact WithBot.coe_lt_coe.mpr (Real.log_lt_log (by norm_num) (by norm_num))

theorem listArgmax_single (x : LogVal) : listArgmax [x] = 0 := by
  unfold listArgmax
  have hr : List.range ([x].length) = [0] := rfl
  rw [hr, List.find?_cons_of_pos]
  · rfl
  · simp [myMax_single]

theorem listArgmax_pair_left {x y : LogVal} (h : y ≤ x) : listArgmax [x, y] = 0 := by
  unfold listArgmax
  have hr : List.range ([x, y].length) = [0, 1] := rfl
  rw [hr, List.find?_cons_of_pos]
  · rfl
  · simp [myMax_pair_left h]


theorem c3_row0 : List.zipWith (· + ·) ls3 [lgv 1, lgv 1] = [lgv (1/10), lgv (9/10)] := by
  simp only [ls3, List.zipWith_cons_cons, List.zipWith_nil_right,
    lgv_add (by norm_num : (0:ℝ) < 1/10) (by norm_num : (0:ℝ) < 1),
    lgv_add (by norm_num : (0:ℝ) < 9/10) (by norm_num : (0:ℝ) < 1)]
  norm_num

/-- Under the beam `log (3/10)`, only state 1 survives pruning of the first frame. -/
theorem c3_prune_row0 : pruneStates [lgv (1/10), lgv (9/10)] none beam3 = [1] := by
  rw [beam3, pruneStates_pair_lgv (by norm_num) (by norm_num) (by norm_num)]
  norm_num

/-- The Viterbi step with active-source list `[1]` records traceback entry `0` for
both destinations: `np.argmax` returns the position INSIDE the pruned source list,
not the source's state index. -/
theorem c3_step1 :
    viterbiStep lt3 2 none beam3 [lgv (1/10), lgv (9/10)] [lgv 1, lgv 1]
      = ([lgv (9/20), lgv (9/20)], [0, 0]) := by
  unfold viterbiStep
  rw [c3_prune_row0]
  have hr : List.range 2 = [0, 1] := rfl
  rw [hr]
  simp only [List.map_cons, List.map_nil, transAt, lt3, List.getD_cons_zero,
    List.getD_cons_succ, List.getD_nil,
    lgv_add (by norm_num : (0:ℝ) < 1/2) (by norm_num : (0:ℝ) < 9/10)]
  norm_num [myMax_single, listArgmax_single]
  rw [lgv_add (by norm_num : (0:ℝ) < 9/20) (by norm_num : (0:ℝ) < 1)]
  norm_num

/-- C3 (code bug, evaluated): with beam pruning active, only state 1 is an active
source at frame 1, so the source achieving every per-destination maximum is state 1;
yet `decode` returns the state sequence `[0, 0]`, because the traceback recorded the
position (0) of that source inside the pruned active list and the walk reads it as
an absolute state index.  The claim's (and spec's) traceback semantics would give
`[1, 0]`. -/
theorem c3_viterbi_traceback_relative_index :
    (decodeHmm ls3 lt3 2 f3 none beam3).2 = [0, 0]
      ∧ List.zipWith (· + ·) ls3 [lgv 1, lgv 1] = [lgv (1/10), lgv (9/10)]
      ∧ pruneStates [lgv (1/10), lgv (9/10)] none beam3 = [1]
      ∧ ([0, 0] : List ℕ) ≠ [1, 0] := by
  refine ⟨?_, c3_row0, c3_prune_row0, by decide⟩
  simp only [decodeHmm, doViterbiPass, f3, viterbiAux, c3_row0, c3_step1]
  simp only [List.map_cons, List.map_nil,
    clamp_lgv (by norm_num : (1:ℝ) / (1 + 10 ^ 200) < 1/10),
    clamp_lgv (by norm_num : (1:ℝ) / (1 + 10 ^ 200) < 9/10),
    clamp_lgv (by norm_num : (1:ℝ) / (1 + 10 ^ 200) < 9/20),
    List.getLastD_cons, List.getLastD_nil]
  rw [listArgmax_pair_left (le_refl (lgv (9/20)))]
  simp [walkRev]

theorem c4_viterbi_le_forward_unpruned_witness :
    (([((0 : ℝ) : LogVal)] : List LogVal).length = 1
        ∧ (∀ r ∈ [[((0 : ℝ) : LogVal)]], r.length = 1)
        ∧ ([[((0 : ℝ) : LogVal)]] : List (List LogVal)) ≠ [])
      ∧ (decodeHmm [((0 : ℝ) : LogVal)] [[((0 : ℝ) : LogVal)]] 1
          [[((0 : ℝ) : LogVal)]] none ⊥).1 ≤
        lpdf [((0 : ℝ) : LogVal)] [[((0 : ℝ) : LogVal)]] 1 [[((0 : ℝ) : LogVal)]] none ⊥ :=
  ⟨⟨rfl, by simp, by simp⟩,
    c4_viterbi_le_forward_unpruned _ _ _ _ rfl (by simp) (by simp)⟩

